import Mathlib

set_option maxRecDepth 100000

/-!
# Verification of the calendar overlap-layout engine

Shallow embedding of the overlap-layout logic of the repository's two
calendar screens, and proofs about it.

Modelling conventions:

* In the first screen (`part_000`), event times are zero-padded `"HH:MM"`
  strings compared with `<` / `localeCompare`; on such strings lexicographic
  order coincides with chronological order, so times are modelled as natural
  numbers of minutes and string comparison as `<` on `Nat`.
* JavaScript's `Array.prototype.sort` is stable; it is modelled by
  `List.insertionSort`, which is stable, and determinism over the choice of
  stable sort is itself proved below.
* The second screen (`part_001`) stores `startMinutes` and `durationMinutes`
  as JavaScript numbers; `durationMinutes` can be negative when the end time
  precedes the start, so both are modelled as `Int`.
-/

/-- An event as consumed by the layout code of `part_000`: a start and end
time-of-day (minutes since midnight, standing for the `"Giờ bắt đầu"` /
`"Giờ kết thúc"` strings) plus an opaque identity standing for the rest of
the `ScheduleEvent` payload (`class`, `date`, …), which the layout never
inspects. The source field `end` is a Lean keyword, hence `stop`. -/
structure Event where
  start : Nat
  stop : Nat
  id : Nat
deriving DecidableEq, Repr

/-- A positioned event, mirroring
`{ event: ScheduleEvent; column: number; totalColumns: number }`. -/
structure Positioned where
  event : Event
  column : Nat
  totalColumns : Nat
deriving DecidableEq, Repr

/-- The overlap test of `part_000` (used both in the main loop, as
`eventStart < pEnd && eventEnd > pStart`, and in the final pass, as
`pStart < oEnd && pEnd > oStart`): the standard interval-overlap predicate. -/
def overlapsB (a b : Event) : Bool :=
  decide (a.start < b.stop) && decide (b.start < a.stop)

/-- Propositional form of `overlapsB`. -/
def Overlaps (a b : Event) : Prop :=
  a.start < b.stop ∧ b.start < a.stop

/-- Models `while (usedColumns.has(column)) column++`, with enough fuel to
clear the whole `used` list: advance from candidate `c` while `c` is taken. -/
def firstFreeFrom (used : List Nat) : Nat → Nat → Nat
  | 0, c => c
  | fuel + 1, c => if c ∈ used then firstFreeFrom used fuel (c + 1) else c

/-- The first column index not present in `used` (the JS `while` loop starting
at `0`). -/
def firstFree (used : List Nat) : Nat :=
  firstFreeFrom used (used.length + 1) 0

/-- The comparator `a.schedule["Giờ bắt đầu"].localeCompare(b.schedule[...])`:
order events by start time. -/
def le000 (a b : Event) : Prop := a.start ≤ b.start

instance : DecidableRel le000 := fun a b => inferInstanceAs (Decidable (_ ≤ _))

instance : IsTotal Event le000 := ⟨fun a b => Nat.le_total a.start b.start⟩

instance : IsTrans Event le000 := ⟨fun _ _ _ h1 h2 => Nat.le_trans h1 h2⟩

/-- Models `[...events].sort((a, b) => a["Giờ bắt đầu"].localeCompare(b[...]))`:
a stable sort by start time. -/
def sortByStart (events : List Event) : List Event :=
  events.insertionSort le000

/-- One iteration of the main `sorted.forEach` loop of
`groupOverlappingEvents`: filter the already-positioned events overlapping
`event`, take the first free column, compute
`maxColumn = Math.max(column + 1, ...overlapping.map(p => p.totalColumns))`,
raise every overlapping event's `totalColumns` to `maxColumn` and append the
new event with that `totalColumns`. -/
def step (positioned : List Positioned) (event : Event) : List Positioned :=
  let overlapping := positioned.filter fun p => overlapsB event p.event
  let column := firstFree (overlapping.map (·.column))
  let maxColumn := (overlapping.map (·.totalColumns)).foldl max (column + 1)
  (positioned.map fun p =>
    if overlapsB event p.event then { p with totalColumns := maxColumn } else p)
    ++ [⟨event, column, maxColumn⟩]

/-- The body of the final pass for elements `p` (at `i`) and `o` (at `j`):
if their events overlap, set both `totalColumns` to their maximum
(`maxCols`), writing the updated records back into the array. -/
def reconcileCore (l : List Positioned) (i j : Nat) (p o : Positioned) : List Positioned :=
  if overlapsB p.event o.event then
    let m := max p.totalColumns o.totalColumns
    (l.set i { p with totalColumns := m }).set j { o with totalColumns := m }
  else l

/-- One body execution of the inner loop of the final pass: skip `i === j`,
otherwise reconcile the elements at `i` and `j`. -/
def reconcilePair (l : List Positioned) (i j : Nat) : List Positioned :=
  if i = j then l
  else
    match l[i]?, l[j]? with
    | some p, some o => reconcileCore l i j p o
    | _, _ => l

/-- The closing `positioned.forEach((p, i) => positioned.forEach((other, j) => …))`
pass, with mutations on the shared array threaded through the fold. -/
def finalPass (l : List Positioned) : List Positioned :=
  (List.range l.length).foldl
    (fun acc i => (List.range l.length).foldl (fun acc2 j => reconcilePair acc2 i j) acc)
    l

/-- The function `groupOverlappingEvents` of `part_000`: early-return `[]` on empty input,
otherwise stable-sort by start time, run the first-fit/`maxColumn` loop, then
the final reconciliation pass. -/
def groupOverlappingEvents (events : List Event) : List Positioned :=
  if events.isEmpty then []
  else finalPass ((sortByStart events).foldl step [])

/-! ## The week view (`part_001`): `getWeekEvents` column pass

Events of this screen carry `startMinutes` and `durationMinutes` produced by
`timeToMinutes`; `durationMinutes = endMinutes - startMinutes` can be negative
when the end time precedes the start, hence `Int`. The column pass works one
day at a time (the code filters `eventsWithColumns` per `day`); the model
below is that per-day pass. -/

/-- An event of the week view with the two fields its column pass reads. -/
structure WEvent where
  startMinutes : Int
  durationMinutes : Int
  id : Nat
deriving DecidableEq, Repr

/-- A week-view event with its mutable layout fields, as produced by
`events.map((event) => ({ ...event, column: 0, totalColumns: 1 }))`. -/
structure WPos where
  event : WEvent
  column : Nat
  totalColumns : Nat
deriving DecidableEq, Repr

/-- End minute of a week-view event:
`currentEvent.startMinutes + currentEvent.durationMinutes`. -/
def wEnd (e : WEvent) : Int := e.startMinutes + e.durationMinutes

/-- The overlap test of the week view's column pass, verbatim:
`(otherEvent.startMinutes < currentEnd && otherEvent.startMinutes >= currentEvent.startMinutes) ||
 (currentEvent.startMinutes < otherEnd && currentEvent.startMinutes >= otherEvent.startMinutes)`. -/
def weekOverlapB (current other : WEvent) : Bool :=
  (decide (other.startMinutes < wEnd current) &&
    decide (other.startMinutes ≥ current.startMinutes)) ||
  (decide (current.startMinutes < wEnd other) &&
    decide (current.startMinutes ≥ other.startMinutes))

/-- Propositional form of `weekOverlapB`. -/
def WeekOverlap (current other : WEvent) : Prop :=
  (other.startMinutes < wEnd current ∧ other.startMinutes ≥ current.startMinutes) ∨
  (current.startMinutes < wEnd other ∧ current.startMinutes ≥ other.startMinutes)

/-- The standard interval-overlap predicate on week-view events
(`A.start < B.end and B.start < A.end`). -/
def WOverlaps (a b : WEvent) : Prop :=
  a.startMinutes < wEnd b ∧ b.startMinutes < wEnd a

/-- Boolean form of `WOverlaps`. -/
def wOverlapsB (a b : WEvent) : Bool :=
  decide (a.startMinutes < wEnd b) && decide (b.startMinutes < wEnd a)

/-- The indices collected into `overlapping` for outer index `i`: the current
event first, then every other index `j` (ascending, as the inner `for` visits
them) whose event passes the overlap test against the current one. The
`!overlapping.includes(otherEvent)` guard is vacuous since each `j` is visited
once and array elements are distinct objects. -/
def collectOverlapping (state : List WPos) (i : Nat) : List Nat :=
  i :: ((List.range state.length).filter fun j =>
    decide (j ≠ i) &&
      match state[i]?, state[j]? with
      | some c, some o => weekOverlapB c.event o.event
      | _, _ => false)

/-- Models `overlapping.forEach((event, index) => { event.column = index;
event.totalColumns = overlapping.length; })`, guarded by
`overlapping.length > 1`. -/
def assignColumns (state : List WPos) (ov : List Nat) : List WPos :=
  if ov.length > 1 then
    (ov.enum).foldl
      (fun st kidx =>
        match st[kidx.2]? with
        | some p => st.set kidx.2 { p with column := kidx.1, totalColumns := ov.length }
        | none => st)
      state
  else state

/-- The comparator `(a, b) => a.startMinutes - b.startMinutes`. -/
def le001 (a b : WEvent) : Prop := a.startMinutes ≤ b.startMinutes

instance : DecidableRel le001 := fun a b => inferInstanceAs (Decidable (_ ≤ _))

instance : IsTotal WEvent le001 := ⟨fun a b => Int.le_total a.startMinutes b.startMinutes⟩

instance : IsTrans WEvent le001 := ⟨fun _ _ _ h1 h2 => Int.le_trans h1 h2⟩

/-- The week view's per-day column pass: give every event `column 0,
totalColumns 1`, sort the day's events by `startMinutes` (stable), then for
each index `i` collect its `overlapping` set and, when it has more than one
member, re-assign columns and totals over it. -/
def weekPass (events : List WEvent) : List WPos :=
  let sorted := events.insertionSort le001
  let init := sorted.map fun e => ⟨e, 0, 1⟩
  (List.range init.length).foldl
    (fun st i => assignColumns st (collectOverlapping st i)) init

/-! ## Supporting code: event styling and day-of-week keys -/

/-- A well-formed `"HH:MM"` time-of-day as read by `getEventStyle` after
`split(':').map(Number)`. -/
structure StyleTime where
  hour : Nat
  minute : Nat
deriving DecidableEq, Repr

/-- The time fields of a `ScheduleEvent` as read by `getEventStyle`:
`event.schedule["Giờ bắt đầu"]` / `["Giờ kết thúc"]`, either absent (JS falsy,
the `!startTime || !endTime` guard) or a well-formed time. -/
structure StyleEvent where
  startTime : Option StyleTime
  endTime : Option StyleTime
deriving DecidableEq, Repr

/-- The `{ top, height }` pixel box returned by `getEventStyle`. JS numbers
can go negative here (an event starting before 6:00), hence `Int`. -/
structure EventStyle where
  top : Int
  height : Int
deriving DecidableEq, Repr

/-- The function `getEventStyle` of `part_000`: missing start or end time
yields the default box `{ top: 0, height: 60 }`; otherwise position from the
6:00 day origin and `height = Math.max(duration, 30)`. -/
def getEventStyle (e : StyleEvent) : EventStyle :=
  match e.startTime, e.endTime with
  | some s, some en =>
    let startOffset : Int := ((s.hour : Int) - 6) * 60 + s.minute
    let endOffset : Int := ((en.hour : Int) - 6) * 60 + en.minute
    let duration : Int := endOffset - startOffset
    ⟨startOffset, max duration 30⟩
  | _, _ => ⟨0, 60⟩

/-- The function `timeToMinutes` of `part_001` on a well-formed `"HH:MM"`
time: `hours * 60 + minutes`. -/
def timeToMinutes (t : StyleTime) : Nat :=
  t.hour * 60 + t.minute

/-- The function `timeToMinutes` of `part_001` including its failure mode on
a missing time field. The body starts with `time.split(":")`; when the
schedule record has no start or end time the argument is JS `undefined`,
whose `.split` access throws a TypeError. That thrown exception is modelled
as `Except.error ()`; a present, well-formed time converts as
`timeToMinutes`. -/
def timeToMinutesChecked (t : Option StyleTime) : Except Unit Nat :=
  match t with
  | none => Except.error ()
  | some t => Except.ok (timeToMinutes t)

/-- The day-of-week key `date.day() === 0 ? 8 : date.day() + 1`, taking the
dayjs weekday index (`0` = Sunday … `6` = Saturday). The same expression
appears in `getEventsForDateAndSlot`, `getWeekEvents` and `handleDrop`. -/
def dayOfWeekKey (day : Nat) : Nat :=
  if day = 0 then 8 else day + 1

/-! ## Connected overlap groups

The spec's "connected overlap group" (transitive closure of pairwise
overlap) has no counterpart in the source; it is formalised here, over list
positions, to state the claims that mention it: one growth step adds every
index overlapping a member, and `events.length` iterations reach the
closure. -/

/-- Overlap of the events at positions `i` and `j` of `events`. -/
def overlapsIdxB (events : List Event) (i j : Nat) : Bool :=
  match events[i]?, events[j]? with
  | some a, some b => overlapsB a b
  | _, _ => false

/-- One closure step: keep every index already in `s` and add every index
overlapping some member of `s`. -/
def growOnce (events : List Event) (s : List Nat) : List Nat :=
  (List.range events.length).filter fun j =>
    s.contains j || s.any fun i => overlapsIdxB events i j

/-- The connected overlap group of position `i`, as a list of positions:
`events.length` closure steps from `{i}`. -/
def clusterIdx (events : List Event) (i : Nat) : List Nat :=
  (growOnce events)^[events.length] [i]

/-! ## Concrete inputs used by the claim theorems -/

/-- Three events forming an overlap chain: the first two overlap, the last
two overlap, but the first and last do not. -/
def exChain : List Event := [⟨0, 100, 0⟩, ⟨50, 150, 1⟩, ⟨120, 200, 2⟩]

/-- Five events whose overlap graph is a chain of two two-cliques joined to a
late three-clique: `0-1`, `1-2`, `2-3`, `2-4`, `3-4`. -/
def exFive : List Event :=
  [⟨0, 50, 0⟩, ⟨40, 100, 1⟩, ⟨90, 300, 2⟩, ⟨110, 200, 3⟩, ⟨111, 210, 4⟩]

/-- The chain `exChain` as week-view events (same intervals, in minutes). -/
def exChainW : List WEvent := [⟨0, 100, 0⟩, ⟨50, 100, 1⟩, ⟨120, 80, 2⟩]

/-- A zero-duration event next to an ordinary event starting at the same
minute: the two do not overlap under the standard predicate. -/
def exZeroW : List WEvent := [⟨10, 0, 0⟩, ⟨10, 10, 1⟩]

/-! ## Derived notions used by the proofs

The main loop assigns columns once and later touches only `totalColumns`;
`colStep` is the loop restricted to the data that determines columns.
`PMono` captures what the final pass can do: keep every event and column,
only raise totals. The remaining predicates name the properties the claims
speak about. -/

/-- The immutable part of a positioned event: its event and its column. -/
def proj (p : Positioned) : Event × Nat := (p.event, p.column)

/-- The column-assigning part of one main-loop iteration: append the event
with the first column free among the already-positioned overlapping events. -/
def colStep (pos : List (Event × Nat)) (e : Event) : List (Event × Nat) :=
  pos ++ [(e, firstFree ((pos.filter fun q => overlapsB e q.1).map (·.2)))]

/-- Pointwise relation between positioned lists: same events and columns,
totals only raised. -/
def PMono (l l' : List Positioned) : Prop :=
  l'.length = l.length ∧
  ∀ k (hk : k < l.length) (hk' : k < l'.length),
    l'[k].event = l[k].event ∧ l'[k].column = l[k].column ∧
      l[k].totalColumns ≤ l'[k].totalColumns

/-- On projected data, overlapping events have different columns. -/
def ColDistinct (a b : Event × Nat) : Prop := Overlaps a.1 b.1 → a.2 ≠ b.2

/-- Overlapping events both report at least two columns. -/
def TotPair (p q : Positioned) : Prop :=
  Overlaps p.event q.event → 2 ≤ p.totalColumns ∧ 2 ≤ q.totalColumns

/-- The main-loop invariant: every event has `column < totalColumns`, and any
two overlapping events both have `totalColumns ≥ 2`. -/
def LoopInv (l : List Positioned) : Prop :=
  (∀ p ∈ l, p.column + 1 ≤ p.totalColumns) ∧ List.Pairwise TotPair l

/-- A stable sort of `l` by start time: sorted output whose restriction to
each start value equals the input's. JavaScript's `Array.prototype.sort`
promises a stable sort but fixes no particular algorithm; any two lists
satisfying this predicate are proved equal below, so the model's choice of
`insertionSort` is irrelevant. -/
def IsStableSortByStart (l out : List Event) : Prop :=
  out.Sorted le000 ∧
    ∀ s : Nat, out.filter (fun e => decide (e.start = s)) =
      l.filter (fun e => decide (e.start = s))

/-- The columns already used, among the first `k` positioned events, by those
that overlap the event `e`: the column pool scanned when the `k`-th event was
positioned. -/
def prevOverlapCols (out : List Positioned) (e : Event) (k : Nat) : List Nat :=
  ((out.take k).filter fun p => overlapsB e p.event).map (·.column)

instance (a b : Event) : Decidable (Overlaps a b) :=
  inferInstanceAs (Decidable (_ ∧ _))

instance (a b : WEvent) : Decidable (WOverlaps a b) :=
  inferInstanceAs (Decidable (_ ∧ _))

instance (a b : WEvent) : Decidable (WeekOverlap a b) :=
  inferInstanceAs (Decidable (_ ∨ _))

/-! ## Basic facts about the overlap predicates -/

theorem overlapsB_iff (a b : Event) : overlapsB a b = true ↔ Overlaps a b := by
  simp [overlapsB, Overlaps]

theorem overlapsB_symm (a b : Event) : overlapsB a b = overlapsB b a := by
  simp only [overlapsB]
  by_cases h1 : a.start < b.stop <;> by_cases h2 : b.start < a.stop <;>
    simp [h1, h2]

theorem weekOverlapB_iff (a b : WEvent) : weekOverlapB a b = true ↔ WeekOverlap a b := by
  simp [weekOverlapB, WeekOverlap]

/-! ## Properties of the first-free-column search -/

theorem length_filter_succ_lt_of_mem {used : List Nat} {c : Nat} (h : c ∈ used) :
    (used.filter fun x => c + 1 ≤ x).length < (used.filter fun x => c ≤ x).length := by
  induction used with
  | nil => cases h
  | cons x t ih =>
    have hmono : (t.filter fun y => c + 1 ≤ y).length ≤ (t.filter fun y => c ≤ y).length :=
      (List.monotone_filter_right t (fun a ha => by
        simp only [decide_eq_true_eq] at ha ⊢; omega)).length_le
    rcases List.mem_cons.mp h with rfl | hx
    · simp only [List.filter_cons, decide_eq_true_eq]
      rw [if_neg (by omega), if_pos (Nat.le_refl c)]
      simp only [List.length_cons]
      omega
    · have := ih hx
      simp only [List.filter_cons, decide_eq_true_eq]
      by_cases h1 : c + 1 ≤ x
      · rw [if_pos h1, if_pos (by omega)]; simpa using this
      · rw [if_neg h1]
        split
        · simp only [List.length_cons]; omega
        · omega

theorem firstFreeFrom_spec (used : List Nat) :
    ∀ fuel c, (used.filter fun x => c ≤ x).length < fuel →
      firstFreeFrom used fuel c ∉ used ∧
        ∀ d, c ≤ d → d < firstFreeFrom used fuel c → d ∈ used := by
  intro fuel
  induction fuel with
  | zero => intro c h; omega
  | succ n ih =>
    intro c h
    rw [firstFreeFrom]
    by_cases hc : c ∈ used
    · rw [if_pos hc]
      have hlt : (used.filter fun x => c + 1 ≤ x).length < n := by
        have := length_filter_succ_lt_of_mem hc
        omega
      rcases ih (c + 1) hlt with ⟨h1, h2⟩
      refine ⟨h1, fun d hcd hdr => ?_⟩
      rcases Nat.eq_or_lt_of_le hcd with rfl | hlt2
      · exact hc
      · exact h2 d hlt2 hdr
    · rw [if_neg hc]
      exact ⟨hc, fun d hcd hdc => absurd (Nat.lt_of_le_of_lt hcd hdc) (Nat.lt_irrefl c)⟩

theorem firstFree_not_mem (used : List Nat) : firstFree used ∉ used :=
  (firstFreeFrom_spec used (used.length + 1) 0
    (Nat.lt_succ_of_le (List.length_filter_le _ _))).1

theorem firstFree_min (used : List Nat) :
    ∀ d < firstFree used, d ∈ used := fun d hd =>
  (firstFreeFrom_spec used (used.length + 1) 0
    (Nat.lt_succ_of_le (List.length_filter_le _ _))).2 d (Nat.zero_le d) hd

/-! ## Bounds on `Math.max(init, ...list)` -/

theorem le_foldl_max (l : List Nat) (i : Nat) : i ≤ l.foldl max i := by
  induction l generalizing i with
  | nil => exact Nat.le_refl i
  | cons x t ih => exact Nat.le_trans (Nat.le_max_left i x) (ih (max i x))

theorem mem_le_foldl_max {l : List Nat} {x : Nat} (hx : x ∈ l) (i : Nat) :
    x ≤ l.foldl max i := by
  induction l generalizing i with
  | nil => cases hx
  | cons y t ih =>
    rcases List.mem_cons.mp hx with rfl | hxt
    · exact Nat.le_trans (Nat.le_max_right i x) (le_foldl_max t (max i x))
    · exact ih hxt (max i y)

/-! ## List helpers -/

theorem set_self {α : Type} (l : List α) (i : Nat) (x : α) (h : l[i]? = some x) :
    l.set i x = l := by
  induction l generalizing i with
  | nil => simp at h
  | cons y t ih =>
    cases i with
    | zero => simp_all
    | succ n =>
      simp only [List.getElem?_cons_succ] at h
      simp [List.set, ih n h]

/-! ## The column assignment seen through the (event, column) projection -/

theorem used_cols_proj (l : List Positioned) (e : Event) :
    ((l.map proj).filter fun q => overlapsB e q.1).map (·.2) =
      (l.filter fun p => overlapsB e p.event).map (·.column) := by
  rw [List.filter_map, List.map_map]
  rfl

theorem step_proj (l : List Positioned) (e : Event) :
    (step l e).map proj = colStep (l.map proj) e := by
  simp only [step, colStep, List.map_append, List.map_map, used_cols_proj]
  congr 1
  exact List.map_congr_left fun p _ => by
    by_cases h : overlapsB e p.event <;> simp [proj, h]

theorem foldl_step_proj (l : List Event) (acc : List Positioned) :
    (l.foldl step acc).map proj = l.foldl colStep (acc.map proj) := by
  induction l generalizing acc with
  | nil => rfl
  | cons e t ih => simp only [List.foldl_cons, ih, step_proj]

theorem foldl_colStep_fst (l : List Event) (acc : List (Event × Nat)) :
    (l.foldl colStep acc).map (·.1) = acc.map (·.1) ++ l := by
  induction l generalizing acc with
  | nil => simp
  | cons e t ih => simp [List.foldl_cons, ih, colStep]

/-! ## The final pass only raises `totalColumns` -/

theorem PMono.rfl (l : List Positioned) : PMono l l :=
  ⟨Eq.refl _, fun _ _ _ => ⟨Eq.refl _, Eq.refl _, Nat.le_refl _⟩⟩

theorem PMono.trans {l₁ l₂ l₃ : List Positioned} (h1 : PMono l₁ l₂) (h2 : PMono l₂ l₃) :
    PMono l₁ l₃ := by
  obtain ⟨hl1, hp1⟩ := h1
  obtain ⟨hl2, hp2⟩ := h2
  refine ⟨hl2.trans hl1, fun k hk hk' => ?_⟩
  have hk2 : k < l₂.length := by omega
  obtain ⟨e1, c1, t1⟩ := hp1 k hk hk2
  obtain ⟨e2, c2, t2⟩ := hp2 k hk2 hk'
  exact ⟨e2.trans e1, c2.trans c1, Nat.le_trans t1 t2⟩

theorem reconcilePair_pmono (l : List Positioned) (i j : Nat) :
    PMono l (reconcilePair l i j) := by
  rw [reconcilePair]
  by_cases hij : i = j
  · rw [if_pos hij]; exact PMono.rfl l
  rw [if_neg hij]
  cases hi : l[i]? with
  | none => exact PMono.rfl l
  | some p =>
    cases hj : l[j]? with
    | none => exact PMono.rfl l
    | some o =>
      show PMono l (reconcileCore l i j p o)
      rw [reconcileCore]
      by_cases hov : overlapsB p.event o.event
      · rw [if_pos hov]
        obtain ⟨hi', hpi⟩ := List.getElem?_eq_some.mp hi
        obtain ⟨hj', hpj⟩ := List.getElem?_eq_some.mp hj
        refine ⟨by simp, fun k hk hk' => ?_⟩
        rw [List.getElem_set, List.getElem_set]
        by_cases hjk : j = k
        · rw [if_pos hjk]
          subst hjk
          rw [hpj]
          exact ⟨Eq.refl _, Eq.refl _, Nat.le_max_right _ _⟩
        · rw [if_neg hjk]
          by_cases hik : i = k
          · rw [if_pos hik]
            subst hik
            rw [hpi]
            exact ⟨Eq.refl _, Eq.refl _, Nat.le_max_left _ _⟩
          · rw [if_neg hik]
            exact ⟨Eq.refl _, Eq.refl _, Nat.le_refl _⟩
      · rw [if_neg hov]; exact PMono.rfl l

theorem foldl_pmono {ι : Type} (f : List Positioned → ι → List Positioned)
    (hf : ∀ a i, PMono a (f a i)) (idxs : List ι) :
    ∀ acc, PMono acc (idxs.foldl f acc) := by
  induction idxs with
  | nil => exact fun acc => PMono.rfl acc
  | cons i t ih => exact fun acc => PMono.trans (hf acc i) (ih (f acc i))

theorem finalPass_pmono (l : List Positioned) : PMono l (finalPass l) := by
  rw [finalPass]
  exact foldl_pmono _
    (fun a i => foldl_pmono (fun acc2 j => reconcilePair acc2 i j)
      (fun a2 j => reconcilePair_pmono a2 i j) _ a)
    (List.range l.length) l

theorem finalPass_proj (l : List Positioned) :
    (finalPass l).map proj = l.map proj := by
  obtain ⟨hlen, hp⟩ := finalPass_pmono l
  refine List.ext_getElem (by simp [hlen]) fun n h1 h2 => ?_
  have hn : n < l.length := by simp_all
  have hn' : n < (finalPass l).length := by omega
  obtain ⟨he, hc, _⟩ := hp n hn hn'
  simp [List.getElem_map, proj, he, hc]

/-! ## Overlapping events receive distinct columns (first-fit) -/

theorem colStep_pairwise {pos : List (Event × Nat)} (e : Event)
    (h : List.Pairwise ColDistinct pos) : List.Pairwise ColDistinct (colStep pos e) := by
  rw [colStep, List.pairwise_append]
  refine ⟨h, List.pairwise_singleton _ _, fun a ha b hb => ?_⟩
  rcases List.mem_singleton.mp hb with rfl
  intro hov
  have hmem : a.2 ∈ (pos.filter fun q => overlapsB e q.1).map (·.2) :=
    List.mem_map_of_mem _ (List.mem_filter.mpr ⟨ha, by
      rw [overlapsB_symm]; exact (overlapsB_iff a.1 e).mpr hov⟩)
  exact fun heq => firstFree_not_mem _ (heq ▸ hmem)

theorem foldl_colStep_pairwise (l : List Event) (acc : List (Event × Nat))
    (h : List.Pairwise ColDistinct acc) :
    List.Pairwise ColDistinct (l.foldl colStep acc) := by
  induction l generalizing acc with
  | nil => exact h
  | cons e t ih => exact ih _ (colStep_pairwise e h)

theorem pairwise_of_proj {R : Event × Nat → Event × Nat → Prop} {l : List Positioned}
    (h : List.Pairwise R (l.map proj)) :
    List.Pairwise (fun p q => R (proj p) (proj q)) l :=
  List.pairwise_map.mp h

/-! ## Lower bound on `totalColumns` of overlapping events -/

theorem loopInv_pmono {l l' : List Positioned} (h : PMono l l') (hinv : LoopInv l) : LoopInv l' := by
  obtain ⟨hlen, hp⟩ := h
  obtain ⟨hcol, hpair⟩ := hinv
  constructor
  · intro q hq
    obtain ⟨k, hk', rfl⟩ := List.mem_iff_getElem.mp hq
    have hk : k < l.length := by omega
    obtain ⟨he, hc, ht⟩ := hp k hk hk'
    calc l'[k].column + 1 = l[k].column + 1 := by rw [hc]
      _ ≤ l[k].totalColumns := hcol _ (List.getElem_mem hk)
      _ ≤ l'[k].totalColumns := ht
  · rw [List.pairwise_iff_getElem] at hpair ⊢
    intro a b ha hb hab
    have ha' : a < l.length := by omega
    have hb' : b < l.length := by omega
    obtain ⟨hea, hca, hta⟩ := hp a ha' ha
    obtain ⟨heb, hcb, htb⟩ := hp b hb' hb
    intro hov
    rw [hea, heb] at hov
    obtain ⟨t1, t2⟩ := hpair a b ha' hb' hab hov
    exact ⟨Nat.le_trans t1 hta, Nat.le_trans t2 htb⟩

theorem loopInv_step {l : List Positioned} (e : Event) (h : LoopInv l) :
    LoopInv (step l e) := by
  obtain ⟨hcol, hpair⟩ := h
  simp only [step]
  set ov := l.filter (fun p => overlapsB e p.event) with hovdef
  set c := firstFree (ov.map (·.column)) with hcdef
  set M := (ov.map (·.totalColumns)).foldl max (c + 1) with hMdef
  have hcM : c + 1 ≤ M := le_foldl_max _ _
  have hle : ∀ p ∈ l, overlapsB e p.event = true → p.totalColumns ≤ M := fun p hp hovp =>
    mem_le_foldl_max (List.mem_map_of_mem _ (List.mem_filter.mpr ⟨hp, hovp⟩)) _
  have hM2 : ∀ p ∈ l, overlapsB e p.event = true → 2 ≤ M := by
    intro p hp hovp
    by_cases hc0 : c = 0
    · have hmem : p.column ∈ ov.map (·.column) :=
        List.mem_map_of_mem _ (List.mem_filter.mpr ⟨hp, hovp⟩)
      have hpc : p.column ≠ 0 := by
        intro h0
        exact firstFree_not_mem (ov.map (·.column)) (hcdef ▸ hc0 ▸ h0 ▸ hmem)
      have := hcol p hp
      have := hle p hp hovp
      omega
    · omega
  constructor
  · intro q hq
    rcases List.mem_append.mp hq with hq | hq
    · obtain ⟨p, hp, rfl⟩ := List.mem_map.mp hq
      by_cases hovp : overlapsB e p.event
      · simp only [hovp, if_pos]
        have := hcol p hp
        have := hle p hp hovp
        omega
      · simp only [hovp]
        rw [if_neg (by simp [hovp])]
        exact hcol p hp
    · rcases List.mem_singleton.mp hq with rfl
      exact hcM
  · rw [List.pairwise_append]
    refine ⟨?_, List.pairwise_singleton _ _, ?_⟩
    · rw [List.pairwise_map]
      refine List.Pairwise.imp_of_mem ?_ hpair
      intro p q hp hq hpq hov
      have hova : Overlaps p.event q.event := by
        revert hov
        by_cases h1 : overlapsB e p.event <;> by_cases h2 : overlapsB e q.event <;>
          simp [h1, h2]
      obtain ⟨t1, t2⟩ := hpq hova
      constructor
      · by_cases h1 : overlapsB e p.event
        · rw [if_pos h1]
          exact Nat.le_trans t1 (hle p hp h1)
        · rw [if_neg (by simpa using h1)]
          exact t1
      · by_cases h2 : overlapsB e q.event
        · rw [if_pos h2]
          exact Nat.le_trans t2 (hle q hq h2)
        · rw [if_neg (by simpa using h2)]
          exact t2
    · intro aa ha bb hb
      obtain ⟨p, hp, rfl⟩ := List.mem_map.mp ha
      rcases List.mem_singleton.mp hb with rfl
      intro hov
      have hpe : (if overlapsB e p.event = true then { p with totalColumns := M } else p).event
          = p.event := by
        split <;> rfl
      rw [hpe] at hov
      have hovB : overlapsB e p.event = true := by
        rw [overlapsB_symm]
        exact (overlapsB_iff _ _).mpr hov
      have h2M : 2 ≤ M := hM2 p hp hovB
      exact ⟨by rw [if_pos hovB]; exact h2M, h2M⟩

theorem loopInv_foldl (l : List Event) (acc : List Positioned) (h : LoopInv acc) :
    LoopInv (l.foldl step acc) := by
  induction l generalizing acc with
  | nil => exact h
  | cons e t ih => exact ih _ (loopInv_step e h)

/-! ## Stable sorting by start time -/

theorem filter_orderedInsert {α : Type} (r : α → α → Prop) [DecidableRel r]
    (p : α → Bool) (a : α) (l : List α)
    (h : p a = true → ∀ b, ¬ r a b → p b = false) :
    (l.orderedInsert r a).filter p =
      if p a = true then a :: l.filter p else l.filter p := by
  induction l with
  | nil => simp [List.orderedInsert, List.filter_cons]
  | cons b t ih =>
    rw [List.orderedInsert]
    by_cases hr : r a b
    · rw [if_pos hr]
      exact List.filter_cons
    · rw [if_neg hr, List.filter_cons]
      by_cases hpb : p b = true
      · rw [if_pos hpb, ih]
        by_cases hpa : p a = true
        · exact absurd hpb (by simp [h hpa b hr])
        · rw [if_neg hpa, if_neg hpa, List.filter_cons, if_pos hpb]
      · rw [if_neg hpb, ih]
        by_cases hpa : p a = true
        · rw [if_pos hpa, if_pos hpa, List.filter_cons, if_neg hpb]
        · rw [if_neg hpa, if_neg hpa, List.filter_cons, if_neg hpb]

theorem filter_insertionSort {α : Type} (r : α → α → Prop) [DecidableRel r]
    (p : α → Bool) (l : List α)
    (h : ∀ a, p a = true → ∀ b, ¬ r a b → p b = false) :
    (l.insertionSort r).filter p = l.filter p := by
  induction l with
  | nil => rfl
  | cons a t ih =>
    rw [List.insertionSort, filter_orderedInsert r p a _ (h a), List.filter_cons]
    by_cases hpa : p a = true
    · rw [if_pos hpa, if_pos hpa, ih]
    · rw [if_neg hpa, if_neg hpa, ih]

theorem sortByStart_stable (l : List Event) : IsStableSortByStart l (sortByStart l) := by
  refine ⟨List.sorted_insertionSort le000 l, fun s => ?_⟩
  refine filter_insertionSort le000 _ l ?_
  intro a hpa b hab
  simp only [decide_eq_true_eq] at hpa
  simp only [le000, not_le] at hab
  simp only [decide_eq_false_iff_not]
  omega

theorem sorted_filter_unique :
    ∀ (o₁ o₂ : List Event), o₁.Sorted le000 → o₂.Sorted le000 →
      (∀ s, o₁.filter (fun e => decide (e.start = s)) =
        o₂.filter (fun e => decide (e.start = s))) → o₁ = o₂ := by
  intro o₁
  induction o₁ with
  | nil =>
    intro o₂ _ _ hf
    cases o₂ with
    | nil => rfl
    | cons b t₂ =>
      have := hf b.start
      simp [List.filter_cons] at this
  | cons a t ih =>
    intro o₂ hs₁ hs₂ hf
    cases o₂ with
    | nil =>
      have := hf a.start
      simp [List.filter_cons] at this
    | cons b t₂ =>
      have hab : a = b := by
        have hb1 : b ∈ (a :: t) := by
          have heq := hf b.start
          have hbmem : b ∈ (b :: t₂).filter (fun e => decide (e.start = b.start)) :=
            List.mem_filter.mpr ⟨List.mem_cons_self b t₂, by simp⟩
          rw [← heq] at hbmem
          exact (List.mem_filter.mp hbmem).1
        have ha2 : a ∈ (b :: t₂) := by
          have heq := hf a.start
          have hamem : a ∈ (a :: t).filter (fun e => decide (e.start = a.start)) :=
            List.mem_filter.mpr ⟨List.mem_cons_self a t, by simp⟩
          rw [heq] at hamem
          exact (List.mem_filter.mp hamem).1
        have h1 : a.start ≤ b.start := by
          rcases List.mem_cons.mp hb1 with rfl | hbt
          · exact Nat.le_refl _
          · exact (List.sorted_cons.mp hs₁).1 b hbt
        have h2 : b.start ≤ a.start := by
          rcases List.mem_cons.mp ha2 with rfl | hat
          · exact Nat.le_refl _
          · exact (List.sorted_cons.mp hs₂).1 a hat
        have hse : a.start = b.start := Nat.le_antisymm h1 h2
        have heq := hf a.start
        rw [List.filter_cons, List.filter_cons, if_pos (by simp),
          if_pos (by simp [hse])] at heq
        exact (List.cons_eq_cons.mp heq).1
      subst hab
      have hft : ∀ s, t.filter (fun e => decide (e.start = s)) =
          t₂.filter (fun e => decide (e.start = s)) := by
        intro s
        have heq := hf s
        rw [List.filter_cons, List.filter_cons] at heq
        by_cases hps : decide (a.start = s) = true
        · rw [if_pos hps, if_pos hps] at heq
          exact (List.cons_eq_cons.mp heq).2
        · rw [if_neg hps, if_neg hps] at heq
          exact heq
      rw [ih t₂ (List.sorted_cons.mp hs₁).2 (List.sorted_cons.mp hs₂).2 hft]

theorem stableSort_unique {l o₁ o₂ : List Event}
    (h1 : IsStableSortByStart l o₁) (h2 : IsStableSortByStart l o₂) : o₁ = o₂ :=
  sorted_filter_unique o₁ o₂ h1.1 h2.1 (fun s => (h1.2 s).trans (h2.2 s).symm)

/-! ## Elementwise first-fit characterisation of the assigned columns -/

theorem foldl_colStep_spec (l : List Event) :
    ∀ k q, (l.foldl colStep ([] : List (Event × Nat)))[k]? = some q →
      q.2 = firstFree ((((l.foldl colStep ([] : List (Event × Nat))).take k).filter
        (fun x => overlapsB q.1 x.1)).map (·.2)) := by
  induction l using List.reverseRecOn with
  | nil => intro k q hq; simp at hq
  | append_singleton t e ih =>
    intro k q hq
    rw [List.foldl_append, List.foldl_cons, List.foldl_nil, colStep] at hq ⊢
    set cs := t.foldl colStep ([] : List (Event × Nat)) with hcs
    by_cases hkl : k < cs.length
    · rw [List.getElem?_append, if_pos hkl] at hq
      rw [List.take_append_of_le_length (Nat.le_of_lt hkl)]
      exact ih k q hq
    · rw [List.getElem?_append_right (by omega)] at hq
      have hk0 : k - cs.length = 0 := by
        by_contra hne
        rw [List.getElem?_eq_none_iff.mpr (by simp; omega)] at hq
        exact Option.noConfusion hq
      have hke : k = cs.length := by omega
      rw [hk0] at hq
      simp only [List.getElem?_cons_zero, Option.some.injEq] at hq
      subst hq
      rw [hke, List.take_left]

/-! ## Transfer from the column machine to `groupOverlappingEvents` -/

theorem groupOverlappingEvents_proj (events : List Event) :
    (groupOverlappingEvents events).map proj =
      (sortByStart events).foldl colStep [] := by
  rw [groupOverlappingEvents]
  by_cases h : events.isEmpty
  · rw [if_pos h, List.isEmpty_iff.mp h]
    rfl
  · rw [if_neg h, finalPass_proj, foldl_step_proj]
    rfl

theorem groupOverlappingEvents_events (events : List Event) :
    (groupOverlappingEvents events).map (·.event) = sortByStart events := by
  have h1 : (groupOverlappingEvents events).map (·.event)
      = ((groupOverlappingEvents events).map proj).map (·.1) := by
    rw [List.map_map]; rfl
  rw [h1, groupOverlappingEvents_proj, foldl_colStep_fst]
  simp

theorem groupOverlappingEvents_first_fit (events : List Event) :
    ∀ k p, (groupOverlappingEvents events)[k]? = some p →
      p.column ∉ prevOverlapCols (groupOverlappingEvents events) p.event k ∧
        ∀ c < p.column, c ∈ prevOverlapCols (groupOverlappingEvents events) p.event k := by
  intro k p hp
  have hcs : ((sortByStart events).foldl colStep [])[k]? = some (proj p) := by
    rw [← groupOverlappingEvents_proj, List.getElem?_map, hp]
    rfl
  have hspec := foldl_colStep_spec (sortByStart events) k (proj p) hcs
  have hcols : prevOverlapCols (groupOverlappingEvents events) p.event k =
      ((((sortByStart events).foldl colStep []).take k).filter
        (fun x => overlapsB (proj p).1 x.1)).map (·.2) := by
    rw [prevOverlapCols, ← used_cols_proj, List.map_take, groupOverlappingEvents_proj]
    rfl
  constructor
  · rw [hcols, show p.column = (proj p).2 from rfl, hspec]
    exact firstFree_not_mem _
  · intro c hc
    rw [hcols]
    apply firstFree_min
    rw [← hspec]
    exact hc

/-! ## Non-overlapping inputs: everything in column 0 of 1 -/

theorem overlaps_symm {a b : Event} (h : Overlaps a b) : Overlaps b a := ⟨h.2, h.1⟩

theorem wOverlaps_symm {a b : WEvent} (h : WOverlaps a b) : WOverlaps b a := ⟨h.2, h.1⟩

theorem foldl_step_no_overlap :
    ∀ (l : List Event) (acc : List Positioned),
      (∀ p ∈ acc, ∀ e ∈ l, ¬ Overlaps e p.event) →
      List.Pairwise (fun a b => ¬ Overlaps a b) l →
      (∀ p ∈ acc, p.column = 0 ∧ p.totalColumns = 1) →
      ∀ p ∈ l.foldl step acc, p.column = 0 ∧ p.totalColumns = 1 := by
  intro l
  induction l with
  | nil => exact fun acc _ _ hacc p hp => hacc p hp
  | cons e t ih =>
    intro acc hcross hpair hacc
    rw [List.foldl_cons]
    have hfil : acc.filter (fun p => overlapsB e p.event) = [] :=
      List.filter_eq_nil_iff.mpr fun p hp hb =>
        hcross p hp e (List.mem_cons_self e t) ((overlapsB_iff _ _).mp hb)
    have hstep : step acc e = acc ++ [⟨e, 0, 1⟩] := by
      simp only [step, hfil, List.map_nil]
      have hmap : ∀ p ∈ acc,
          (if overlapsB e p.event = true
            then { p with totalColumns := List.foldl max (firstFree [] + 1) [] }
            else p) = p := fun p hp => by
        rw [if_neg fun hb => hcross p hp e (List.mem_cons_self e t) ((overlapsB_iff _ _).mp hb)]
      rw [List.map_congr_left hmap]
      simp
      rfl
    refine ih (step acc e) ?_ (List.pairwise_cons.mp hpair).2 ?_
    · intro p hp e' he'
      rw [hstep] at hp
      rcases List.mem_append.mp hp with hp | hp
      · exact hcross p hp e' (List.mem_cons_of_mem e he')
      · rcases List.mem_singleton.mp hp with rfl
        exact fun hov =>
          (List.pairwise_cons.mp hpair).1 e' he' (overlaps_symm hov)
    · intro p hp
      rw [hstep] at hp
      rcases List.mem_append.mp hp with hp | hp
      · exact hacc p hp
      · rcases List.mem_singleton.mp hp with rfl
        exact ⟨rfl, rfl⟩

theorem finalPass_no_overlap (l : List Positioned)
    (h : List.Pairwise (fun p q => ¬ Overlaps p.event q.event) l) :
    finalPass l = l := by
  have hsym : ∀ i j (hi : i < l.length) (hj : j < l.length), i ≠ j →
      overlapsB l[i].event l[j].event = false := by
    rw [List.pairwise_iff_getElem] at h
    intro i j hi hj hij
    rw [Bool.eq_false_iff]
    intro hb
    rcases Nat.lt_or_ge i j with hlt | hge
    · exact h i j hi hj hlt ((overlapsB_iff _ _).mp hb)
    · have hji : j < i := by omega
      exact h j i hj hi hji (overlaps_symm ((overlapsB_iff _ _).mp hb))
  have hrec : ∀ i j, reconcilePair l i j = l := by
    intro i j
    rw [reconcilePair]
    by_cases hij : i = j
    · rw [if_pos hij]
    rw [if_neg hij]
    cases hi : l[i]? with
    | none =>
      cases hj : l[j]? with
      | none => rfl
      | some o => rfl
    | some p =>
      cases hj : l[j]? with
      | none => rfl
      | some o =>
        show reconcileCore l i j p o = l
        obtain ⟨hi', hpi⟩ := List.getElem?_eq_some.mp hi
        obtain ⟨hj', hpj⟩ := List.getElem?_eq_some.mp hj
        rw [reconcileCore, if_neg]
        rw [← hpi, ← hpj]
        simp [hsym i j hi' hj' hij]
  have hinner : ∀ (i : Nat) (js : List Nat),
      js.foldl (fun acc2 j => reconcilePair acc2 i j) l = l := by
    intro i js
    induction js with
    | nil => rfl
    | cons j t iht => rw [List.foldl_cons, hrec i j, iht]
  have houter : ∀ (idxs js : List Nat),
      idxs.foldl (fun acc i => js.foldl (fun acc2 j => reconcilePair acc2 i j) acc) l = l := by
    intro idxs js
    induction idxs with
    | nil => rfl
    | cons i t iht => rw [List.foldl_cons, hinner i js, iht]
  rw [finalPass]
  exact houter (List.range l.length) (List.range l.length)

/-! ## Week-view overlap test under positive durations -/

theorem weekOverlap_iff_of_pos {a b : WEvent}
    (ha : 0 < a.durationMinutes) (hb : 0 < b.durationMinutes) :
    WeekOverlap a b ↔ WOverlaps a b := by
  simp only [WeekOverlap, WOverlaps, wEnd, ge_iff_le]
  omega

theorem weekPass_no_overlap (wevents : List WEvent)
    (hnov : List.Pairwise (fun a b => ¬ WOverlaps a b) wevents)
    (hpos : ∀ e ∈ wevents, 0 < e.durationMinutes) :
    ∀ p ∈ weekPass wevents, p.column = 0 ∧ p.totalColumns = 1 := by
  have hperm := List.perm_insertionSort le001 wevents
  have hnov' : List.Pairwise (fun a b => ¬ WOverlaps a b) (wevents.insertionSort le001) :=
    (hperm.pairwise_iff fun hxy hov => hxy (wOverlaps_symm hov)).mpr hnov
  have hpos' : ∀ e ∈ wevents.insertionSort le001, 0 < e.durationMinutes := fun e he =>
    hpos e (hperm.mem_iff.mp he)
  rw [weekPass]
  set sorted := wevents.insertionSort le001 with hsorted
  set init := sorted.map (fun e => (⟨e, 0, 1⟩ : WPos)) with hinit
  have hwov : ∀ i j (hi : i < sorted.length) (hj : j < sorted.length), i ≠ j →
      weekOverlapB sorted[i] sorted[j] = false := by
    rw [List.pairwise_iff_getElem] at hnov'
    intro i j hi hj hij
    rw [Bool.eq_false_iff]
    intro hb
    have hov : WOverlaps sorted[i] sorted[j] :=
      (weekOverlap_iff_of_pos (hpos' _ (List.getElem_mem hi))
        (hpos' _ (List.getElem_mem hj))).mp ((weekOverlapB_iff _ _).mp hb)
    rcases Nat.lt_or_ge i j with hlt | hge
    · exact hnov' i j hi hj hlt hov
    · exact hnov' j i hj hi (by omega) (wOverlaps_symm hov)
  have hcol : ∀ i, collectOverlapping init i = [i] := by
    intro i
    rw [collectOverlapping]
    have hfil : (List.range init.length).filter (fun j =>
        decide (j ≠ i) &&
          match init[i]?, init[j]? with
          | some c, some o => weekOverlapB c.event o.event
          | _, _ => false) = [] := by
      refine List.filter_eq_nil_iff.mpr fun j hj => ?_
      intro hb
      rw [Bool.and_eq_true] at hb
      obtain ⟨hji, hb⟩ := hb
      have hji' : j ≠ i := by simpa using hji
      have hjlen : j < init.length := List.mem_range.mp hj
      by_cases hilen : i < init.length
      · have hjs : j < sorted.length := by simpa [hinit] using hjlen
        have his : i < sorted.length := by simpa [hinit] using hilen
        rw [List.getElem?_eq_getElem hilen, List.getElem?_eq_getElem hjlen] at hb
        have hb2 : weekOverlapB init[i].event init[j].event = true := hb
        have hie : init[i].event = sorted[i] := by
          simp [hinit]
        have hje : init[j].event = sorted[j] := by
          simp [hinit]
        rw [hie, hje, hwov i j his hjs (fun he => hji' he.symm)] at hb2
        exact Bool.noConfusion hb2
      · rw [List.getElem?_eq_none_iff.mpr (by omega)] at hb
        exact Bool.noConfusion hb
    rw [hfil]
  have hassign : ∀ i, assignColumns init [i] = init := fun i => by
    rw [assignColumns, if_neg (by simp)]
  have hfold : ∀ idxs : List Nat,
      idxs.foldl (fun st i => assignColumns st (collectOverlapping st i)) init = init := by
    intro idxs
    induction idxs with
    | nil => rfl
    | cons i t ih => rw [List.foldl_cons, hcol i, hassign i, ih]
  rw [hfold]
  intro p hp
  obtain ⟨e, _, rfl⟩ := List.mem_map.mp hp
  exact ⟨rfl, rfl⟩

/-! ## Remaining glue -/

theorem foldl_step_events (l : List Event) :
    (l.foldl step []).map (·.event) = l := by
  have h1 : (l.foldl step []).map (·.event) = ((l.foldl step []).map proj).map (·.1) := by
    rw [List.map_map]; rfl
  rw [h1, foldl_step_proj, foldl_colStep_fst]
  simp

/-! # The claims -/

/-- C1, counterexample: the claim fails on the week view's column pass
(`getWeekEvents`). On `exChainW` the events at positions 0 and 1 of the
output are `⟨0, 100⟩` and `⟨50, 100⟩`, which overlap under the standard
predicate (`0 < 150 ∧ 50 < 100`), yet both are assigned column 1. -/
theorem C1_week_counterexample :
    ((weekPass exChainW).map (·.event))[0]? = some ⟨0, 100, 0⟩ ∧
    ((weekPass exChainW).map (·.event))[1]? = some ⟨50, 100, 1⟩ ∧
    WOverlaps ⟨0, 100, 0⟩ ⟨50, 100, 1⟩ ∧
    ((weekPass exChainW).map (·.column))[0]? = some 1 ∧
    ((weekPass exChainW).map (·.column))[1]? = some 1 := by
  decide

/-- C1, amended: in `groupOverlappingEvents` (the day view), any two output
events at distinct positions whose intervals overlap are assigned different
columns; the week view's pass violates this (see the counterexample). -/
theorem C1_distinct_columns (events : List Event) :
    List.Pairwise (fun p q => Overlaps p.event q.event → p.column ≠ q.column)
      (groupOverlappingEvents events) := by
  rw [groupOverlappingEvents]
  by_cases h : events.isEmpty
  · rw [if_pos h]; exact List.Pairwise.nil
  rw [if_neg h]
  have hp : List.Pairwise ColDistinct
      ((finalPass ((sortByStart events).foldl step [])).map proj) := by
    rw [finalPass_proj, foldl_step_proj]
    exact foldl_colStep_pairwise _ _ List.Pairwise.nil
  exact pairwise_of_proj hp

/-- C1, witness: the amended theorem at the concrete input `exFive`. -/
theorem C1_witness :
    List.Pairwise (fun p q => Overlaps p.event q.event → p.column ≠ q.column)
      (groupOverlappingEvents exFive) :=
  C1_distinct_columns exFive

/-- C2, counterexample: on `exChain` the connected overlap group of the first
event has all 3 events, the first two output events overlap, yet every
`totalColumns` in the output is 2, not 3. -/
theorem C2_counterexample :
    (clusterIdx exChain 0).length = 3 ∧
    (∀ p ∈ groupOverlappingEvents exChain, p.totalColumns = 2) ∧
    ((groupOverlappingEvents exChain).map (·.event))[0]? = some ⟨0, 100, 0⟩ ∧
    ((groupOverlappingEvents exChain).map (·.event))[1]? = some ⟨50, 150, 1⟩ ∧
    Overlaps ⟨0, 100, 0⟩ ⟨50, 150, 1⟩ := by
  decide

/-- C2, amended: overlapping output events both have `totalColumns ≥ 2`, but
`totalColumns` need not equal the size of the connected overlap group (the
counterexample shows 2 against a group of size 3). -/
theorem C2_totalColumns_lower_bound (events : List Event) :
    List.Pairwise (fun p q => Overlaps p.event q.event →
      2 ≤ p.totalColumns ∧ 2 ≤ q.totalColumns) (groupOverlappingEvents events) := by
  rw [groupOverlappingEvents]
  by_cases h : events.isEmpty
  · rw [if_pos h]; exact List.Pairwise.nil
  rw [if_neg h]
  refine (loopInv_pmono (finalPass_pmono _) (loopInv_foldl _ [] ⟨?_, List.Pairwise.nil⟩)).2
  intro p hp
  cases hp

/-- C2, witness: the amended theorem at the concrete input `exFive`. -/
theorem C2_witness :
    List.Pairwise (fun p q => Overlaps p.event q.event →
      2 ≤ p.totalColumns ∧ 2 ≤ q.totalColumns) (groupOverlappingEvents exFive) :=
  C2_totalColumns_lower_bound exFive

/-- C3: the closing reconciliation pass does not make `totalColumns` agree
across a cluster (against the code's own comment "Final pass to ensure all
overlapping events have same totalColumns"): on `exFive` the first two output
events overlap but end with `totalColumns` 2 and 3, and 3 is the cluster's
maximum simultaneous load which event 0 never receives. -/
theorem C3_reconciliation_diverges :
    (groupOverlappingEvents exFive).map (·.totalColumns) = [2, 3, 3, 3, 3] ∧
    ((groupOverlappingEvents exFive).map (·.event))[0]? = some ⟨0, 50, 0⟩ ∧
    ((groupOverlappingEvents exFive).map (·.event))[1]? = some ⟨40, 100, 1⟩ ∧
    Overlaps ⟨0, 50, 0⟩ ⟨40, 100, 1⟩ ∧
    (clusterIdx exFive 0).length = 5 := by
  decide

/-- C4, counterexample: the no-raise guarantee does not hold throughout the
layout code. In the week view, an event whose start or end time is missing
makes `timeToMinutes` throw (a TypeError on `undefined.split(":")`, modelled
as `Except.error`) instead of degrading to a minimum-duration event. -/
theorem C4_missing_time_raises :
    timeToMinutesChecked none = Except.error () ∧
      ∀ t : StyleTime, timeToMinutesChecked (some t) = Except.ok (timeToMinutes t) :=
  ⟨rfl, fun _ => rfl⟩

/-- C4, amended: the day view's `getEventStyle` behaves as claimed — it is a
total function, the rendered height is always at least the floor constant 30
(so zero- or negative-duration events get the minimum box), and an event
missing a start or end time degrades to the default `{ top: 0, height: 60 }`
box instead of failing; the week view's `timeToMinutes`, in contrast, throws
on a missing time (see the counterexample). -/
theorem C4_getEventStyle_total (e : StyleEvent) :
    30 ≤ (getEventStyle e).height ∧
      ((e.startTime = none ∨ e.endTime = none) → getEventStyle e = ⟨0, 60⟩) := by
  rcases e with ⟨st, en⟩
  cases st with
  | none => exact ⟨by norm_num [getEventStyle], fun _ => rfl⟩
  | some s =>
    cases en with
    | none => exact ⟨by norm_num [getEventStyle], fun _ => rfl⟩
    | some t =>
      refine ⟨?_, ?_⟩
      · simp only [getEventStyle]
        exact le_max_right _ _
      · rintro (h | h) <;> exact Option.noConfusion h

/-- C4, witness: a zero-duration event gets the 30-minute floor and a
malformed event gets the default box. -/
theorem C4_witness :
    (30 ≤ (getEventStyle ⟨some ⟨9, 0⟩, some ⟨9, 0⟩⟩).height ∧
      (((⟨some ⟨9, 0⟩, some ⟨9, 0⟩⟩ : StyleEvent).startTime = none ∨
        (⟨some ⟨9, 0⟩, some ⟨9, 0⟩⟩ : StyleEvent).endTime = none) →
        getEventStyle ⟨some ⟨9, 0⟩, some ⟨9, 0⟩⟩ = ⟨0, 60⟩)) ∧
    getEventStyle ⟨none, some ⟨9, 0⟩⟩ = ⟨0, 60⟩ :=
  ⟨C4_getEventStyle_total ⟨some ⟨9, 0⟩, some ⟨9, 0⟩⟩,
    (C4_getEventStyle_total ⟨none, some ⟨9, 0⟩⟩).2 (Or.inl rfl)⟩

/-- C5: the day view's layout processes events in ascending start order with
ties kept in input order (a stable sort), and each event's column is the
least column not used by any previously processed overlapping event. -/
theorem C5_sorted_first_fit (events : List Event) :
    (groupOverlappingEvents events).map (·.event) = sortByStart events ∧
    IsStableSortByStart events ((groupOverlappingEvents events).map (·.event)) ∧
    ∀ k p, (groupOverlappingEvents events)[k]? = some p →
      p.column ∉ prevOverlapCols (groupOverlappingEvents events) p.event k ∧
        ∀ c < p.column, c ∈ prevOverlapCols (groupOverlappingEvents events) p.event k := by
  refine ⟨groupOverlappingEvents_events events, ?_, groupOverlappingEvents_first_fit events⟩
  rw [groupOverlappingEvents_events events]
  exact sortByStart_stable events

/-- C5, witness: the theorem at the concrete input `exFive`. -/
theorem C5_witness :
    (groupOverlappingEvents exFive).map (·.event) = sortByStart exFive ∧
    IsStableSortByStart exFive ((groupOverlappingEvents exFive).map (·.event)) ∧
    ∀ k p, (groupOverlappingEvents exFive)[k]? = some p →
      p.column ∉ prevOverlapCols (groupOverlappingEvents exFive) p.event k ∧
        ∀ c < p.column, c ∈ prevOverlapCols (groupOverlappingEvents exFive) p.event k :=
  C5_sorted_first_fit exFive

/-- C6, counterexample: the claim fails on the week view when a zero-duration
event is present. In `exZeroW` no two events overlap under the standard
predicate (the zero-duration event `⟨10, 10⟩` overlaps nothing), yet the week
view's pass groups them and emits columns `1, 0` and `totalColumns 2, 2`
instead of all `column 0, totalColumns 1`. -/
theorem C6_week_counterexample :
    List.Pairwise (fun a b => ¬ WOverlaps a b) exZeroW ∧
    (weekPass exZeroW).map (fun p => (p.column, p.totalColumns)) = [(1, 2), (0, 2)] := by
  decide

/-- C6, amended: on inputs with no overlapping pair, `groupOverlappingEvents`
assigns every event `column 0, totalColumns 1` unconditionally; the week
view's pass does so provided every event also has positive duration (the
counterexample shows a zero-duration event breaks it). -/
theorem C6_no_overlap_single_column (events : List Event) (wevents : List WEvent)
    (h1 : List.Pairwise (fun a b => ¬ Overlaps a b) events)
    (h2 : List.Pairwise (fun a b => ¬ WOverlaps a b) wevents)
    (h3 : ∀ e ∈ wevents, 0 < e.durationMinutes) :
    (∀ p ∈ groupOverlappingEvents events, p.column = 0 ∧ p.totalColumns = 1) ∧
    (∀ p ∈ weekPass wevents, p.column = 0 ∧ p.totalColumns = 1) := by
  constructor
  · rw [groupOverlappingEvents]
    by_cases h : events.isEmpty
    · rw [if_pos h]; intro p hp; cases hp
    rw [if_neg h]
    have hperm := List.perm_insertionSort le000 events
    have h1' : List.Pairwise (fun a b => ¬ Overlaps a b) (sortByStart events) :=
      (hperm.pairwise_iff fun hxy hov => hxy (overlaps_symm hov)).mpr h1
    have hall : ∀ p ∈ (sortByStart events).foldl step [],
        p.column = 0 ∧ p.totalColumns = 1 :=
      foldl_step_no_overlap _ [] (fun p hp => absurd hp (List.not_mem_nil p)) h1'
        (fun p hp => absurd hp (List.not_mem_nil p))
    have hpp : List.Pairwise (fun p q : Positioned => ¬ Overlaps p.event q.event)
        ((sortByStart events).foldl step []) := by
      have h1'' := h1'
      rw [← foldl_step_events (sortByStart events)] at h1''
      exact List.pairwise_map.mp h1''
    rw [finalPass_no_overlap _ hpp]
    exact hall
  · exact weekPass_no_overlap wevents h2 h3

/-- C6, witness: the amended theorem at two concrete non-overlapping inputs,
hypotheses discharged by computation. -/
theorem C6_witness :
    (∀ p ∈ groupOverlappingEvents [⟨0, 10, 0⟩, ⟨20, 30, 1⟩],
      p.column = 0 ∧ p.totalColumns = 1) ∧
    (∀ p ∈ weekPass [⟨0, 10, 0⟩, ⟨20, 10, 1⟩],
      p.column = 0 ∧ p.totalColumns = 1) :=
  C6_no_overlap_single_column [⟨0, 10, 0⟩, ⟨20, 30, 1⟩] [⟨0, 10, 0⟩, ⟨20, 10, 1⟩]
    (by decide) (by decide) (by decide)

/-- C7: the layout is a pure, deterministic function of its input: the input
sequence is not consumed (the output carries exactly the input events, as a
permutation), and the result does not depend on which stable sort the runtime
used, so two runs on the same unsorted input agree. -/
theorem C7_pure_deterministic (events o : List Event)
    (h : IsStableSortByStart events o) :
    groupOverlappingEvents events = finalPass (o.foldl step []) ∧
      ((groupOverlappingEvents events).map (·.event)).Perm events := by
  have ho : o = sortByStart events := stableSort_unique h (sortByStart_stable events)
  subst ho
  constructor
  · rw [groupOverlappingEvents]
    by_cases h2 : events.isEmpty
    · rw [if_pos h2, List.isEmpty_iff.mp h2]
      rfl
    · rw [if_neg h2]
  · rw [groupOverlappingEvents_events]
    exact List.perm_insertionSort le000 events

/-- C7, witness: the theorem at `exChain`, whose stable sort is itself. -/
theorem C7_witness :
    groupOverlappingEvents exChain = finalPass (exChain.foldl step []) ∧
      ((groupOverlappingEvents exChain).map (·.event)).Perm exChain :=
  C7_pure_deterministic exChain exChain ⟨by decide, fun s => rfl⟩

/-- C8: the day-of-week key sends the dayjs index 0 (Sunday) to 8 and any
other index d (Monday=1 … Saturday=6) to d+1, so keys run contiguously over
Monday=2 … Saturday=7 with Sunday=8 and key 1 unused. -/
theorem C8_dayOfWeekKey_mapping (d : Nat) (hd : d < 7) :
    (d = 0 → dayOfWeekKey d = 8) ∧
    (1 ≤ d → dayOfWeekKey d = d + 1) ∧
    2 ≤ dayOfWeekKey d ∧ dayOfWeekKey d ≤ 8 ∧ dayOfWeekKey d ≠ 1 := by
  rw [dayOfWeekKey]
  by_cases h : d = 0 <;> simp [h] <;> omega

/-- C8, witness: the theorem at Monday (dayjs index 1), key 2. -/
theorem C8_witness :
    1 < 7 ∧
      ((1 = 0 → dayOfWeekKey 1 = 8) ∧
        (1 ≤ 1 → dayOfWeekKey 1 = 1 + 1) ∧
        2 ≤ dayOfWeekKey 1 ∧ dayOfWeekKey 1 ≤ 8 ∧ dayOfWeekKey 1 ≠ 1) :=
  ⟨by decide, C8_dayOfWeekKey_mapping 1 (by decide)⟩

/-- C9: the repository's two overlap-layout implementations diverge: on the
same three chain-overlapping intervals (`exChain` in the day view, `exChainW`
in the week view, identical start/end minutes and ids, both emitted in the
same sorted order), the day view assigns columns `0,1,0` and `totalColumns`
`2,2,2` while the week view assigns columns `1,1,0` and `totalColumns`
`3,2,2`. -/
theorem C9_implementations_diverge :
    ((groupOverlappingEvents exChain).map (·.event.id) = [0, 1, 2] ∧
      (weekPass exChainW).map (·.event.id) = [0, 1, 2]) ∧
    ((groupOverlappingEvents exChain).map (·.column) = [0, 1, 0] ∧
      (weekPass exChainW).map (·.column) = [1, 1, 0]) ∧
    ((groupOverlappingEvents exChain).map (·.totalColumns) = [2, 2, 2] ∧
      (weekPass exChainW).map (·.totalColumns) = [3, 2, 2]) := by
  decide

/-- C10: for events with positive duration, the week view's two-sided overlap
test is equivalent to the standard interval-overlap predicate. -/
theorem C10_week_overlap_test_equiv (a b : WEvent)
    (ha : 0 < a.durationMinutes) (hb : 0 < b.durationMinutes) :
    WeekOverlap a b ↔ WOverlaps a b :=
  weekOverlap_iff_of_pos ha hb

/-- C10, witness: the theorem at two concrete positive-duration events. -/
theorem C10_witness :
    (0 < (⟨0, 60, 0⟩ : WEvent).durationMinutes ∧
      0 < (⟨30, 60, 1⟩ : WEvent).durationMinutes) ∧
      (WeekOverlap ⟨0, 60, 0⟩ ⟨30, 60, 1⟩ ↔ WOverlaps ⟨0, 60, 0⟩ ⟨30, 60, 1⟩) :=
  ⟨⟨by decide, by decide⟩, C10_week_overlap_test_equiv _ _ (by decide) (by decide)⟩
